import Mathlib

/-!
Verification of the markdown-editor repository's path admission controller
(`src/utils/security.ts`) and instance coordinator (lock file and port
probing in the server entry file).  JavaScript strings are embedded as
`List Char`; Node's POSIX path resolution is embedded lexically.
-/

namespace MarkdownEditor

/-- A JavaScript string, embedded as its list of characters. -/
abbrev JStr := List Char

/-- `s.split(c)` for a single-character separator, as in JavaScript:
always returns a non-empty list of chunks. -/
def splitOnChar (c : Char) : JStr → List JStr
  | [] => [[]]
  | x :: xs =>
    if x = c then [] :: splitOnChar c xs
    else
      match splitOnChar c xs with
      | [] => [[x]]
      | g :: gs => (x :: g) :: gs

/-- `s.toLowerCase()` (ASCII-faithful). -/
def jsToLower (s : JStr) : JStr := s.map Char.toLower

/-- `s.trim()`. -/
def jsTrim (s : JStr) : JStr :=
  ((s.dropWhile Char.isWhitespace).reverse.dropWhile Char.isWhitespace).reverse

/-- `s.startsWith(pre)`. -/
def jsStartsWith (s : JStr) (pre : JStr) : Bool := List.isPrefixOf pre s

/-- The suffix of `s` after the last occurrence of `c` (all of `s` when `c`
does not occur).  This is the value of `s.split(c).pop()`. -/
def afterLast (c : Char) : JStr → JStr
  | [] => []
  | x :: xs =>
    if c ∈ xs then afterLast c xs
    else if x = c then xs
    else x :: xs

/-- Lexical collapsing of path segments: drops empty and `.` segments and
lets `..` pop the previous segment (a `..` at the root is dropped), exactly
as Node's POSIX `path.normalize` does on an absolute path.  The first
argument accumulates the kept segments in reverse. -/
def collapseSegs : List JStr → List JStr → List JStr
  | acc, [] => acc.reverse
  | acc, [] :: rest => collapseSegs acc rest
  | acc, ['.'] :: rest => collapseSegs acc rest
  | acc, ['.', '.'] :: rest => collapseSegs (acc.drop 1) rest
  | acc, seg :: rest => collapseSegs (seg :: acc) rest

/-- Node's `normalize(resolve(p))` on POSIX with working directory `cwd`:
an absolute path is collapsed lexically; a relative one is first appended
to `cwd`. -/
def posixResolve (cwd p : JStr) : JStr :=
  let full := if jsStartsWith p ['/'] then p else cwd ++ '/' :: p
  '/' :: List.intercalate ['/'] (collapseSegs [] (splitOnChar '/' full))

/-- Result of `fs.statSync`: the metadata the validator consults. -/
structure FileStats where
  isFile : Bool
  size : Nat
deriving DecidableEq

/-- The filesystem as seen by the validator: a working directory and a
`stat` map (`none` models a path that does not exist, so that
`existsSync p = (stat p).isSome`). -/
structure FS where
  cwd : JStr
  stat : JStr → Option FileStats

/-- `SecurityConfig` from `src/utils/security.ts`.  `maxFileSize` is a
JavaScript number obtained from `parseInt`; `none` models `NaN`
(a comparison `size > NaN` is false). -/
structure SecurityConfig where
  allowedDirectories : List JStr
  maxFileSize : Option Int
  allowedExtensions : List JStr

/-- `a > b` on JavaScript numbers where `b` may be `NaN`. -/
def numGt (a : Int) (b : Option Int) : Bool :=
  match b with
  | some m => a > m
  | none => false

/-- The possible results of `validateFilePath`, one constructor per
`return` site of the source (the `error` strings are identified by
constructor; `denyExt` carries the extension interpolated into the
message). -/
inductive VResult where
  | allow
  | denyNotExist
  | denyNotFile
  | denyOutside
  | denyExt (ext : JStr)
  | denyTooLarge
deriving DecidableEq

/-- The containment check of `validateFilePath` (security.ts lines 39-45):
`normalizedPath.startsWith(normalizedAllowed + "/") ||
 normalizedPath.startsWith(normalizedAllowed)`. -/
def pathIsAllowed (cwd : JStr) (config : SecurityConfig) (normalizedPath : JStr) : Bool :=
  config.allowedDirectories.any (fun allowedDir =>
    let normalizedAllowed := posixResolve cwd allowedDir
    jsStartsWith normalizedPath (normalizedAllowed ++ ['/']) ||
    jsStartsWith normalizedPath normalizedAllowed)

/-- The extension computed by `validateFilePath` (security.ts line 55):
`normalizedPath.split(".").pop()?.toLowerCase()` (the `.pop()` of the
always non-empty split is its last element). -/
def extOf (normalizedPath : JStr) : JStr :=
  jsToLower ((splitOnChar '.' normalizedPath).getLastD [])

/-- `validateFilePath` from `src/utils/security.ts` lines 17-78. -/
def validateFilePath (fs : FS) (filePath : JStr) (config : SecurityConfig) : VResult :=
  let normalizedPath := posixResolve fs.cwd filePath
  match fs.stat normalizedPath with
  | none => .denyNotExist
  | some stats =>
    if !stats.isFile then .denyNotFile
    else if !pathIsAllowed fs.cwd config normalizedPath then .denyOutside
    else
      let ext := extOf normalizedPath
      if ext.isEmpty || !config.allowedExtensions.contains ext then .denyExt ext
      else if numGt (stats.size : Int) config.maxFileSize then .denyTooLarge
      else .allow

/-- Containment in the spec's words (step 3 of the admission contract):
the normalized path must begin with the normalized allowed directory
followed by a path separator, or equal it exactly.  Stated from the spec
for comparison with the implementation's `pathIsAllowed`. -/
def specContains (cwd : JStr) (allowedDir np : JStr) : Bool :=
  let d := posixResolve cwd allowedDir
  jsStartsWith np (d ++ ['/']) || np == d

/-- Spec-side containment in any allowed directory. -/
def specContainsAny (cwd : JStr) (dirs : List JStr) (np : JStr) : Bool :=
  dirs.any (fun d => specContains cwd d np)

/-- The final `/`-separated segment of a path (spec vocabulary for the
extension claim). -/
def finalSegment (s : JStr) : JStr := (splitOnChar '/' s).getLastD []

/-- The extension of a single path segment in the spec's sense: the part
after the last dot, or `none` when the segment has no dot. -/
def segExt (s : JStr) : Option JStr :=
  if '.' ∈ s then some (afterLast '.' s) else none

/-- The two environment variables read by `createSecurityConfig`
(`none` models an unset variable). -/
structure Env where
  allowedDirectoriesVar : Option JStr
  maxFileSizeVar : Option JStr

/-- The JavaScript idiom `v || d` on an optional environment value:
`undefined` and the empty string are falsy. -/
def jsOrDefault (v : Option JStr) (d : JStr) : JStr :=
  match v with
  | none => d
  | some s => if s.isEmpty then d else s

/-- `parseInt(s, 10)`: trim, optional sign, then the longest digit prefix;
`none` models `NaN` when no digit is found. -/
def parseIntBase10 (s : JStr) : Option Int :=
  let t := jsTrim s
  let signRest : Int × JStr :=
    match t with
    | '-' :: r => (-1, r)
    | '+' :: r => (1, r)
    | r => (1, r)
  let digits := signRest.2.takeWhile Char.isDigit
  if digits.isEmpty then none
  else some (signRest.1 * digits.foldl (fun n c => n * 10 + ((c.toNat : Int) - 48)) 0)

/-- `createSecurityConfig` from `src/utils/security.ts` lines 140-158:
directories and maximum size come from the environment, the extension
allow-list is the fixed literal `["md", "markdown", "txt"]`. -/
def createSecurityConfig (env : Env) : Except JStr SecurityConfig :=
  let allowedDirs := jsOrDefault env.allowedDirectoriesVar []
  let maxSize := parseIntBase10 (jsOrDefault env.maxFileSizeVar "5242880".data)
  let allowedDirectories :=
    ((splitOnChar ',' allowedDirs).map jsTrim).filter (fun d => d.length > 0)
  if allowedDirectories.length = 0 then
    .error "No allowed directories configured".data
  else
    .ok { allowedDirectories := allowedDirectories,
          maxFileSize := maxSize,
          allowedExtensions := ["md".data, "markdown".data, "txt".data] }

/-- Outcome of `process.kill(pid, 0)`: it succeeds when the process exists
and may be signalled, raises `EPERM` when it exists but may not be
signalled, and raises `ESRCH` when no such process exists. -/
inductive KillProbe where
  | success
  | eperm
  | esrch
deriving DecidableEq

/-- `isProcessRunning` from the server entry file: `process.kill(pid, 0)`
inside a `try`, with every exception caught and mapped to `false`. -/
def isProcessRunning (probe : Nat → KillProbe) (pid : Nat) : Bool :=
  match probe pid with
  | .success => true
  | _ => false

/-- `LockFileData`: the JSON record stored in `.markdown-editor.lock`. -/
structure LockFileData where
  pid : Nat
  port : Nat
  timestamp : Nat
  hostname : JStr
deriving DecidableEq

/-- The errors `acquireLock` can throw: the "another instance is already
running" error (reporting the lock's pid and port), or a re-thrown
non-`ENOENT` error from reading the lock file (the `JSON.parse` failure
on the given raw content). -/
inductive AcquireError where
  | anotherInstance (pid port timestamp : Nat)
  | rethrown (raw : JStr)
deriving DecidableEq

/-- `acquireLock` from the server entry file (lines 341-378).  The lock
file content is `none` on `ENOENT`; `parseLock` models `JSON.parse`
(`none` when it throws) and `encodeLock` models `JSON.stringify`.
Returns the new lock-file content on success. -/
def acquireLock (parseLock : JStr → Option LockFileData) (encodeLock : LockFileData → JStr)
    (probe : Nat → KillProbe) (selfPid now : Nat) (hostname : JStr)
    (lockFile : Option JStr) (port : Nat) : Except AcquireError (Option JStr) :=
  match lockFile with
  | none =>
    -- readFile throws ENOENT, which the catch swallows; proceed to write
    .ok (some (encodeLock ⟨selfPid, port, now, hostname⟩))
  | some content =>
    match parseLock content with
    | none =>
      -- JSON.parse throws; its code is not ENOENT, so the catch re-throws
      .error (.rethrown content)
    | some lockData =>
      if isProcessRunning probe lockData.pid then
        .error (.anotherInstance lockData.pid lockData.port lockData.timestamp)
      else
        -- stale lock: unlink it, then write the fresh record
        .ok (some (encodeLock ⟨selfPid, port, now, hostname⟩))

/-- Outcome of one `app.listen(port)` attempt. -/
inductive BindResult where
  | ok
  | addrInUse
  | otherError (msg : JStr)
deriving DecidableEq

/-- The errors `startServerOnAvailablePort` can throw. -/
inductive StartError where
  | exhausted (maxAttempts preferredPort : Nat)
  | bindError (msg : JStr)
  | unexpected
deriving DecidableEq

/-- The `for` loop of `startServerOnAvailablePort` (lines 410-443).  The
fuel argument starts at `maxAttempts` and bounds the remaining
iterations; the loop conditions are the source's own tests on
`attempt`. -/
def startLoop (bind : Nat → BindResult) (preferredPort maxAttempts : Nat) :
    Nat → Nat → Except StartError Nat
  | _, 0 => .error .unexpected
  | attempt, fuel + 1 =>
    if attempt < maxAttempts then
      let port := preferredPort + attempt
      match bind port with
      | .ok => .ok port
      | .addrInUse =>
        if attempt < maxAttempts - 1 then
          startLoop bind preferredPort maxAttempts (attempt + 1) fuel
        else
          .error (.exhausted maxAttempts preferredPort)
      | .otherError msg => .error (.bindError msg)
    else .error .unexpected

/-- `startServerOnAvailablePort` (lines 406-446): try
`preferredPort + 0, …` for at most `maxAttempts` ports. -/
def startServerOnAvailablePort (bind : Nat → BindResult)
    (preferredPort maxAttempts : Nat) : Except StartError Nat :=
  startLoop bind preferredPort maxAttempts 0 maxAttempts

/-- Observable outcome of the server start sequence. -/
inductive StartupOutcome where
  | running (port : Nat) (lockFile : Option JStr)
  | exitedAnotherInstance (pid port : Nat)
  | exitedFailure
deriving DecidableEq

/-- The part of the start IIFE after the preliminary lock check: bind a
port (default `maxAttempts = 10`), then `acquireLock`; any thrown error
reaches the outer catch, which exits with code 1. -/
def serverBootAfterCheck (parseLock : JStr → Option LockFileData)
    (encodeLock : LockFileData → JStr) (probe : Nat → KillProbe)
    (bind : Nat → BindResult) (selfPid now : Nat) (hostname : JStr)
    (preferredPort : Nat) (lockFile : Option JStr) : StartupOutcome :=
  match startServerOnAvailablePort bind preferredPort 10 with
  | .error _ => .exitedFailure
  | .ok port =>
    match acquireLock parseLock encodeLock probe selfPid now hostname lockFile port with
    | .error _ => .exitedFailure
    | .ok newLock => .running port newLock

/-- The server start IIFE (lines 452-531): a preliminary lock check that
exits with code 1 when the lock's process is still running (reporting its
pid and port), warns and proceeds when the lock file is absent or
unparseable, and then binds a port and acquires the lock. -/
def serverStart (parseLock : JStr → Option LockFileData)
    (encodeLock : LockFileData → JStr) (probe : Nat → KillProbe)
    (bind : Nat → BindResult) (selfPid now : Nat) (hostname : JStr)
    (preferredPort : Nat) (lockFile : Option JStr) : StartupOutcome :=
  match lockFile with
  | none =>
    serverBootAfterCheck parseLock encodeLock probe bind selfPid now hostname preferredPort lockFile
  | some content =>
    match parseLock content with
    | none =>
      -- "Warning: Invalid lock file detected, will clean up" — proceed
      serverBootAfterCheck parseLock encodeLock probe bind selfPid now hostname preferredPort lockFile
    | some lockData =>
      if isProcessRunning probe lockData.pid then
        .exitedAnotherInstance lockData.pid lockData.port
      else
        serverBootAfterCheck parseLock encodeLock probe bind selfPid now hostname preferredPort lockFile

/-! ### Library lemmas about the embedded string primitives -/

theorem splitOnChar_ne_nil (c : Char) (s : JStr) : splitOnChar c s ≠ [] := by
  induction s with
  | nil => simp [splitOnChar]
  | cons x xs ih =>
    simp only [splitOnChar]
    split
    · simp
    · split <;> simp

theorem splitOnChar_of_not_mem {c : Char} {s : JStr} (h : c ∉ s) : splitOnChar c s = [s] := by
  induction s with
  | nil => rfl
  | cons x xs ih =>
    have hx : ¬ x = c := by rintro rfl; exact h (List.mem_cons_self x xs)
    have hxs : c ∉ xs := fun hm => h (List.mem_cons_of_mem _ hm)
    simp only [splitOnChar, if_neg hx, ih hxs]

theorem two_le_length_splitOnChar {c : Char} {s : JStr} (h : c ∈ s) :
    2 ≤ (splitOnChar c s).length := by
  induction s with
  | nil => cases h
  | cons x xs ih =>
    by_cases hx : x = c
    · subst hx
      simp only [splitOnChar, eq_self_iff_true, if_true, List.length_cons]
      have h1 : 0 < (splitOnChar x xs).length :=
        List.length_pos.mpr (splitOnChar_ne_nil x xs)
      omega
    · have hc : c ∈ xs := (List.mem_cons.mp h).resolve_left fun he => hx he.symm
      simp only [splitOnChar, if_neg hx]
      cases hs : splitOnChar c xs with
      | nil => exact absurd hs (splitOnChar_ne_nil c xs)
      | cons g gs =>
        have h2 := ih hc
        rw [hs] at h2
        simp only [List.length_cons] at h2 ⊢
        omega

theorem getLastD_irrel {α : Type} (l : List α) (a b : α) (h : l ≠ []) :
    l.getLastD a = l.getLastD b := by
  cases l with
  | nil => exact absurd rfl h
  | cons x xs =>
    cases xs with
    | nil => rfl
    | cons y ys => simp only [List.getLastD_cons]

theorem afterLast_of_not_mem {c : Char} {s : JStr} (h : c ∉ s) : afterLast c s = s := by
  induction s with
  | nil => rfl
  | cons x xs ih =>
    have hx : ¬ x = c := by rintro rfl; exact h (List.mem_cons_self x xs)
    have hxs : c ∉ xs := fun hm => h (List.mem_cons_of_mem _ hm)
    simp only [afterLast, if_neg hx, if_neg hxs]

theorem getLastD_splitOnChar (c : Char) (s : JStr) :
    (splitOnChar c s).getLastD [] = afterLast c s := by
  induction s with
  | nil => rfl
  | cons x xs ih =>
    by_cases hx : x = c
    · subst hx
      simp only [splitOnChar, eq_self_iff_true, if_true, List.getLastD_cons]
      rw [ih]
      by_cases hm : x ∈ xs
      · simp only [afterLast, if_pos hm]
      · simp [afterLast, if_neg hm, afterLast_of_not_mem hm]
    · simp only [splitOnChar, if_neg hx]
      by_cases hm : c ∈ xs
      · cases hs : splitOnChar c xs with
        | nil => exact absurd hs (splitOnChar_ne_nil c xs)
        | cons g gs =>
          have hlen := two_le_length_splitOnChar hm
          rw [hs] at hlen
          have hgs : gs ≠ [] := by
            cases gs with
            | nil => simp at hlen
            | cons _ _ => simp
          simp only [List.getLastD_cons]
          rw [getLastD_irrel gs (x :: g) g hgs]
          have hlast : gs.getLastD g = (splitOnChar c xs).getLastD [] := by
            rw [hs, List.getLastD_cons]
          rw [hlast, ih]
          simp only [afterLast, if_pos hm]
      · rw [splitOnChar_of_not_mem hm]
        simp only [List.getLastD_cons, List.getLastD_nil]
        simp only [afterLast, if_neg hm, if_neg hx]

theorem exists_append_afterLast (c : Char) (s : JStr) : ∃ u, s = u ++ afterLast c s := by
  induction s with
  | nil => exact ⟨[], rfl⟩
  | cons x xs ih =>
    by_cases hm : c ∈ xs
    · obtain ⟨u, hu⟩ := ih
      refine ⟨x :: u, ?_⟩
      simp only [afterLast, if_pos hm, List.cons_append]
      exact congrArg (x :: ·) hu
    · by_cases hx : x = c
      · exact ⟨[x], by simp [afterLast, hm, hx]⟩
      · exact ⟨[], by simp [afterLast, hm, hx]⟩

theorem afterLast_append_of_mem {c : Char} (u : JStr) {t : JStr} (h : c ∈ t) :
    afterLast c (u ++ t) = afterLast c t := by
  induction u with
  | nil => rfl
  | cons a u ih =>
    have hm : c ∈ u ++ t := List.mem_append_right u h
    rw [List.cons_append]
    simp only [afterLast]
    rw [if_pos hm]
    exact ih

theorem mem_afterLast_cross {a b : Char} (hba : b ≠ a) {s : JStr}
    (h1 : a ∉ afterLast b s) (h2 : b ∈ s) : b ∈ afterLast a s := by
  induction s with
  | nil => cases h2
  | cons x xs ih =>
    by_cases hbx : b ∈ xs
    · simp only [afterLast, if_pos hbx] at h1
      by_cases hax : a ∈ xs
      · simp only [afterLast, if_pos hax]
        exact ih h1 hbx
      · simp only [afterLast, if_neg hax]
        by_cases hxa : x = a
        · rw [if_pos hxa]; exact hbx
        · rw [if_neg hxa]; exact List.mem_cons_of_mem _ hbx
    · have hxb : x = b := ((List.mem_cons.mp h2).resolve_right hbx).symm
      simp only [afterLast, if_neg hbx, if_pos hxb] at h1
      have hxa : ¬ x = a := by rw [hxb]; exact hba
      simp only [afterLast, if_neg h1, if_neg hxa]
      exact h2

theorem contains_iff_mem (l : List JStr) (a : JStr) : l.contains a = true ↔ a ∈ l := by
  simp [List.contains, List.elem_iff]

/-! ### Support lemmas about the embedded program -/

theorem isProcessRunning_iff (probe : Nat → KillProbe) (pid : Nat) :
    isProcessRunning probe pid = true ↔ probe pid = .success := by
  cases h : probe pid <;> simp [isProcessRunning, h]

theorem posixResolve_head (cwd p : JStr) : ∃ t, posixResolve cwd p = '/' :: t :=
  ⟨_, rfl⟩

theorem slash_mem_posixResolve (cwd p : JStr) : '/' ∈ posixResolve cwd p := by
  obtain ⟨t, ht⟩ := posixResolve_head cwd p
  rw [ht]
  exact List.mem_cons_self _ _

theorem specContainsAny_imp_pathIsAllowed {cwd : JStr} {cfg : SecurityConfig} {np : JStr}
    (h : specContainsAny cwd cfg.allowedDirectories np = true) :
    pathIsAllowed cwd cfg np = true := by
  rw [specContainsAny, List.any_eq_true] at h
  obtain ⟨d, hd, hsc⟩ := h
  rw [pathIsAllowed, List.any_eq_true]
  refine ⟨d, hd, ?_⟩
  simp only [specContains, Bool.or_eq_true] at hsc
  simp only [Bool.or_eq_true]
  cases hsc with
  | inl h1 => exact Or.inl h1
  | inr h2 =>
    right
    have he : np = posixResolve cwd d := by simpa using h2
    rw [jsStartsWith, he]
    exact List.isPrefixOf_iff_prefix.mpr (List.prefix_refl _)

theorem startLoop_step (bind : Nat → BindResult) (pref maxA i : Nat)
    (h : i + 1 < maxA) (hb : bind (pref + i) = .addrInUse) :
    startLoop bind pref maxA i (maxA - i) = startLoop bind pref maxA (i + 1) (maxA - (i + 1)) := by
  obtain ⟨f, hf⟩ : ∃ f, maxA - i = f + 1 := ⟨maxA - i - 1, by omega⟩
  have hf' : maxA - (i + 1) = f := by omega
  rw [hf, hf']
  simp only [startLoop, hb]
  rw [if_pos (by omega : i < maxA)]
  rw [if_pos (by omega : i < maxA - 1)]

theorem startLoop_skip (bind : Nat → BindResult) (pref maxA k : Nat)
    (hk : k < maxA) (hbusy : ∀ j, j < k → bind (pref + j) = .addrInUse) :
    startLoop bind pref maxA 0 maxA = startLoop bind pref maxA k (maxA - k) := by
  induction k with
  | zero => simp
  | succ n ih =>
    have h1 := ih (by omega) (fun j hj => hbusy j (by omega))
    rw [h1, startLoop_step bind pref maxA n (by omega) (hbusy n (by omega))]

theorem validateFilePath_ext_branch (fs : FS) (p : JStr) (cfg : SecurityConfig)
    (stats : FileStats)
    (hstat : fs.stat (posixResolve fs.cwd p) = some stats)
    (hfile : stats.isFile = true)
    (hallow : pathIsAllowed fs.cwd cfg (posixResolve fs.cwd p) = true) :
    validateFilePath fs p cfg =
      if (extOf (posixResolve fs.cwd p)).isEmpty ||
          !cfg.allowedExtensions.contains (extOf (posixResolve fs.cwd p)) then
        .denyExt (extOf (posixResolve fs.cwd p))
      else if numGt (stats.size : Int) cfg.maxFileSize then .denyTooLarge
      else .allow := by
  simp only [validateFilePath, hstat, hfile, hallow]
  simp

theorem isEmpty_false_of_ne_nil {l : JStr} (h : l ≠ []) : l.isEmpty = false := by
  cases l with
  | nil => exact absurd rfl h
  | cons a l => rfl

theorem mem_exts_ne_nil {e : JStr}
    (h : e ∈ ["md".data, "markdown".data, "txt".data]) : e ≠ [] := by
  rcases List.mem_cons.mp h with rfl | h2
  · decide
  rcases List.mem_cons.mp h2 with rfl | h3
  · decide
  rcases List.mem_cons.mp h3 with rfl | h4
  · decide
  · cases h4

theorem mem_exts_no_slash {e : JStr}
    (h : e ∈ ["md".data, "markdown".data, "txt".data]) : '/' ∉ e := by
  rcases List.mem_cons.mp h with rfl | h2
  · decide
  rcases List.mem_cons.mp h2 with rfl | h3
  · decide
  rcases List.mem_cons.mp h3 with rfl | h4
  · decide
  · cases h4

/-! ### Claim theorems -/

/-- C1: the claim states that a candidate in a sibling directory sharing a
raw string prefix with an allowed directory is denied.  The code instead
allows it: with policy directory `/data/safe`, the existing regular file
`/data/safe-other/x.md` passes the containment check through the bare
`startsWith(normalizedAllowed)` disjunct and `validateFilePath` returns
the allow decision, even though the path is not inside the allowed
directory under boundary-respecting containment. -/
theorem C1_prefix_match_eval :
    validateFilePath
      ⟨"/".data, fun q => if q = "/data/safe-other/x.md".data then some ⟨true, 10⟩ else none⟩
      "/data/safe-other/x.md".data
      ⟨["/data/safe".data], some 5242880, ["md".data, "markdown".data, "txt".data]⟩
      = .allow ∧
    specContainsAny "/".data ["/data/safe".data]
      (posixResolve "/".data "/data/safe-other/x.md".data) = false :=
  ⟨by decide, by decide⟩

/-- C2: the claim states that a traversal path which normalizes outside
every allowed directory is never allowed.  With `/tmp/docs` allowed, the
code honours the spec's two examples (`/tmp/docs/../docs/note.md` is
allowed, `/tmp/docs/../../etc/passwd` is denied as outside), but the
traversal path `/tmp/docs/../docs-evil/x.md` — which normalizes to
`/tmp/docs-evil/x.md`, outside `/tmp/docs` at path boundaries — is
allowed, because the containment comparison is a raw string-prefix
test. -/
theorem C2_traversal_eval :
    validateFilePath
      ⟨"/".data, fun q =>
        if q = "/tmp/docs/note.md".data then some ⟨true, 50⟩
        else if q = "/etc/passwd".data then some ⟨true, 100⟩
        else if q = "/tmp/docs-evil/x.md".data then some ⟨true, 10⟩
        else none⟩
      "/tmp/docs/../docs/note.md".data
      ⟨["/tmp/docs".data], some 1000, ["md".data, "markdown".data, "txt".data]⟩
      = .allow ∧
    validateFilePath
      ⟨"/".data, fun q =>
        if q = "/tmp/docs/note.md".data then some ⟨true, 50⟩
        else if q = "/etc/passwd".data then some ⟨true, 100⟩
        else if q = "/tmp/docs-evil/x.md".data then some ⟨true, 10⟩
        else none⟩
      "/tmp/docs/../../etc/passwd".data
      ⟨["/tmp/docs".data], some 1000, ["md".data, "markdown".data, "txt".data]⟩
      = .denyOutside ∧
    validateFilePath
      ⟨"/".data, fun q =>
        if q = "/tmp/docs/note.md".data then some ⟨true, 50⟩
        else if q = "/etc/passwd".data then some ⟨true, 100⟩
        else if q = "/tmp/docs-evil/x.md".data then some ⟨true, 10⟩
        else none⟩
      "/tmp/docs/../docs-evil/x.md".data
      ⟨["/tmp/docs".data], some 1000, ["md".data, "markdown".data, "txt".data]⟩
      = .allow ∧
    specContainsAny "/".data ["/tmp/docs".data]
      (posixResolve "/".data "/tmp/docs/../docs-evil/x.md".data) = false :=
  ⟨by decide, by decide, by decide, by decide⟩

/-- C3: the claim states that with a malformed (unparseable) lock file the
whole startup sequence, `acquireLock` included, completes as if the lock
file were absent.  The code's preliminary check does warn and proceed,
but `acquireLock` re-throws the `JSON.parse` failure (its error code is
not `ENOENT`), the outer catch logs "Failed to start server" and the
process exits with code 1 — while the same startup with the lock file
absent completes and serves. -/
theorem C3_malformed_lock_eval :
    serverStart (fun _ => none) (fun _ => "NEWLOCK".data) (fun _ => .esrch) (fun _ => .ok)
      111 5 "host".data 3000 (some "not-json".data) = .exitedFailure ∧
    serverStart (fun _ => none) (fun _ => "NEWLOCK".data) (fun _ => .esrch) (fun _ => .ok)
      111 5 "host".data 3000 none = .running 3000 (some "NEWLOCK".data) :=
  ⟨by decide, by decide⟩

/-- C9: the claim states that the liveness probe returns success for every
existing process regardless of permission to signal it.  The code catches
every exception of `process.kill(pid, 0)` — including `EPERM`, which is
raised precisely when the process exists but may not be signalled — and
returns false, so an existing but unsignalable process is reported as not
running. -/
theorem C9_eperm_probe_eval :
    isProcessRunning (fun _ => KillProbe.eperm) 4321 = false ∧
    (fun _ : Nat => KillProbe.eperm) 4321 ≠ KillProbe.esrch :=
  ⟨rfl, by decide⟩

/-- C10: every successfully created security configuration carries exactly
the fixed extension allow-list `["md", "markdown", "txt"]`, whatever the
environment contains: only the directories and the maximum file size are
read from configuration. -/
theorem C10_fixed_extensions (env : Env) (cfg : SecurityConfig)
    (h : createSecurityConfig env = .ok cfg) :
    cfg.allowedExtensions = ["md".data, "markdown".data, "txt".data] := by
  simp only [createSecurityConfig] at h
  split at h
  · exact absurd h (by simp)
  · injection h with h2
    rw [← h2]

/-- Witness for C10 at a concrete environment. -/
theorem C10_fixed_extensions_witness :
    createSecurityConfig ⟨some "/tmp/docs".data, none⟩ =
      Except.ok ⟨["/tmp/docs".data], some 5242880, ["md".data, "markdown".data, "txt".data]⟩ ∧
    (⟨["/tmp/docs".data], some 5242880,
      ["md".data, "markdown".data, "txt".data]⟩ : SecurityConfig).allowedExtensions =
      ["md".data, "markdown".data, "txt".data] :=
  ⟨rfl, C10_fixed_extensions ⟨some "/tmp/docs".data, none⟩ _ rfl⟩

/-- C4 counterexample: the claim as stated demands a fatal exit whenever
the lock record's process id corresponds to a still-running process.
With a probe that raises `EPERM` for pid 999 — a process that exists but
may not be signalled — the second startup does not exit: it treats the
lock as stale, binds the port and overwrites the record. -/
theorem C4_eperm_counterexample :
    serverStart (fun s => if s = "LOCK".data then some ⟨999, 3005, 7, "mach".data⟩ else none)
      (fun _ => "NEWLOCK".data) (fun _ => .eperm) (fun _ => .ok)
      111 5 "host".data 3000 (some "LOCK".data)
      = .running 3000 (some "NEWLOCK".data) ∧
    (fun _ : Nat => KillProbe.eperm) 999 ≠ KillProbe.esrch :=
  ⟨by decide, by decide⟩

/-- C4 (amended): given an existing lock file whose content parses to a
record, a second startup exits with code 1 reporting the record's pid and
port exactly when the liveness probe on that pid succeeds (the signal is
permitted); otherwise — the probe raising no-such-process or
permission-denied alike — startup proceeds, a port is bound, the stale
record is discarded and the new lock content carries the current process
id and the bound port. -/
theorem C4_lock_coordination (parseLock : JStr → Option LockFileData)
    (encodeLock : LockFileData → JStr) (probe : Nat → KillProbe) (bind : Nat → BindResult)
    (selfPid now : Nat) (host : JStr) (pref : Nat) (raw : JStr) (d : LockFileData) (p : Nat)
    (hparse : parseLock raw = some d)
    (hbind : startServerOnAvailablePort bind pref 10 = .ok p) :
    serverStart parseLock encodeLock probe bind selfPid now host pref (some raw) =
      if probe d.pid = KillProbe.success then .exitedAnotherInstance d.pid d.port
      else .running p (some (encodeLock ⟨selfPid, p, now, host⟩)) := by
  cases h : probe d.pid <;>
    simp [serverStart, serverBootAfterCheck, acquireLock, isProcessRunning, hparse, hbind, h]

/-- Witness for C4 at a concrete live lock record: the startup exits
reporting pid 999 and port 3005 from the lock file. -/
theorem C4_lock_coordination_witness :
    serverStart (fun _ => some ⟨999, 3005, 7, "mach".data⟩) (fun _ => "NEWLOCK".data)
      (fun _ => KillProbe.success) (fun _ => .ok) 111 5 "host".data 3000 (some "LOCK".data)
      = .exitedAnotherInstance 999 3005 := by
  have h := C4_lock_coordination (fun _ => some ⟨999, 3005, 7, "mach".data⟩)
    (fun _ => "NEWLOCK".data) (fun _ => KillProbe.success) (fun _ => .ok)
    111 5 "host".data 3000 "LOCK".data ⟨999, 3005, 7, "mach".data⟩ 3000 rfl rfl
  simpa using h

/-- C5: port binding tries `preferredPort + 0, +1, …` for at most
`maxAttempts` consecutive values.  Under the hypothesis that the first
`k` candidates fail with the address-in-use error: a successful bind at
the k-th candidate yields that port; any other bind error there aborts
immediately with that error; and if every candidate up to `maxAttempts`
is in use the result is the fatal exhaustion error. -/
theorem C5_port_binding (bind : Nat → BindResult) (pref maxA k : Nat)
    (hk : k < maxA) (hbusy : ∀ j, j < k → bind (pref + j) = .addrInUse) :
    (bind (pref + k) = .ok → startServerOnAvailablePort bind pref maxA = .ok (pref + k)) ∧
    (∀ msg, bind (pref + k) = .otherError msg →
      startServerOnAvailablePort bind pref maxA = .error (.bindError msg)) ∧
    ((∀ j, j < maxA → bind (pref + j) = .addrInUse) →
      startServerOnAvailablePort bind pref maxA = .error (.exhausted maxA pref)) := by
  refine ⟨?_, ?_, ?_⟩
  · intro hok
    rw [startServerOnAvailablePort, startLoop_skip bind pref maxA k hk hbusy]
    obtain ⟨f, hf⟩ : ∃ f, maxA - k = f + 1 := ⟨maxA - k - 1, by omega⟩
    rw [hf]
    simp only [startLoop, hok]
    rw [if_pos hk]
  · intro msg hmsg
    rw [startServerOnAvailablePort, startLoop_skip bind pref maxA k hk hbusy]
    obtain ⟨f, hf⟩ : ∃ f, maxA - k = f + 1 := ⟨maxA - k - 1, by omega⟩
    rw [hf]
    simp only [startLoop, hmsg]
    rw [if_pos hk]
  · intro hall
    rw [startServerOnAvailablePort,
      startLoop_skip bind pref maxA (maxA - 1) (by omega) (fun j hj => hall j (by omega))]
    have h1 : maxA - (maxA - 1) = 1 := by omega
    rw [h1]
    simp only [startLoop, hall (maxA - 1) (by omega)]
    rw [if_pos (by omega : maxA - 1 < maxA), if_neg (by omega : ¬ maxA - 1 < maxA - 1)]

/-- Witness for C5 at the spec's scenario: ports 3000-3002 bound, 3003
free, preferred port 3000, at most 10 attempts — the bound port is
3003. -/
theorem C5_port_binding_witness :
    startServerOnAvailablePort (fun port => if port ≤ 3002 then .addrInUse else .ok)
      3000 10 = .ok 3003 := by
  have h := (C5_port_binding (fun port => if port ≤ 3002 then .addrInUse else .ok) 3000 10 3
    (by omega) (fun j hj => by interval_cases j <;> rfl)).1 (by decide)
  simpa using h

/-- C6 counterexample: the claim as stated demands the
outside-allowed-directories denial for every existing regular file not
contained in any allowed directory.  The existing file
`/data/safe-other/y.exe` is outside `/data/safe` under
boundary-respecting containment, yet the code returns the extension
denial, because the raw-prefix containment test passes and evaluation
reaches the extension check. -/
theorem C6_outside_probe_counterexample :
    validateFilePath
      ⟨"/".data, fun q => if q = "/data/safe-other/y.exe".data then some ⟨true, 10⟩ else none⟩
      "/data/safe-other/y.exe".data
      ⟨["/data/safe".data], some 5242880, ["md".data, "markdown".data, "txt".data]⟩
      = .denyExt "exe".data ∧
    specContainsAny "/".data ["/data/safe".data]
      (posixResolve "/".data "/data/safe-other/y.exe".data) = false :=
  ⟨by decide, by decide⟩

/-- C6 (amended): for every existing regular file whose normalized path
fails the implementation's allowed-directory check, `validateFilePath`
returns the outside-allowed-directories denial — never an extension or
size denial — whatever the file's extension or size: the containment
check is evaluated before the extension and size checks. -/
theorem C6_containment_first (fs : FS) (p : JStr) (cfg : SecurityConfig) (stats : FileStats)
    (hstat : fs.stat (posixResolve fs.cwd p) = some stats)
    (hfile : stats.isFile = true)
    (hallow : pathIsAllowed fs.cwd cfg (posixResolve fs.cwd p) = false) :
    validateFilePath fs p cfg = .denyOutside := by
  simp only [validateFilePath, hstat, hfile, hallow]
  simp

/-- Witness for C6 at a concrete outside file with a disallowed extension
and a size above the limit: the decision is still the outside denial. -/
theorem C6_containment_first_witness :
    validateFilePath
      ⟨"/".data, fun q => if q = "/data/elsewhere/z.exe".data then some ⟨true, 9999999⟩ else none⟩
      "/data/elsewhere/z.exe".data
      ⟨["/data/safe".data], some 5242880, ["md".data, "markdown".data, "txt".data]⟩
      = .denyOutside :=
  C6_containment_first _ _ _ ⟨true, 9999999⟩ (by decide) rfl (by decide)

/-- C7: for an existing regular file inside an allowed directory, under
the configured extension allow-list `{md, markdown, txt}`, the extension
check is decided case-insensitively on the final segment's extension:
the decision is the extension denial exactly when the final path segment
has no extension or its lowercased extension is not in the list, and an
allow-listed extension in any letter case passes the extension check
(the decision proceeds to the size check: allow or file-too-large). -/
theorem C7_extension_check (fs : FS) (p : JStr) (cfg : SecurityConfig) (stats : FileStats)
    (hexts : cfg.allowedExtensions = ["md".data, "markdown".data, "txt".data])
    (hstat : fs.stat (posixResolve fs.cwd p) = some stats)
    (hfile : stats.isFile = true)
    (hin : specContainsAny fs.cwd cfg.allowedDirectories (posixResolve fs.cwd p) = true) :
    ((∃ e, validateFilePath fs p cfg = .denyExt e) ↔
      ¬ ∃ e, segExt (finalSegment (posixResolve fs.cwd p)) = some e ∧
        jsToLower e ∈ cfg.allowedExtensions) ∧
    ((∃ e, segExt (finalSegment (posixResolve fs.cwd p)) = some e ∧
        jsToLower e ∈ cfg.allowedExtensions) →
      validateFilePath fs p cfg = .allow ∨ validateFilePath fs p cfg = .denyTooLarge) := by
  have hallow := specContainsAny_imp_pathIsAllowed hin
  have hmain := validateFilePath_ext_branch fs p cfg stats hstat hfile hallow
  have hfseg : finalSegment (posixResolve fs.cwd p) = afterLast '/' (posixResolve fs.cwd p) :=
    getLastD_splitOnChar '/' (posixResolve fs.cwd p)
  have hext : extOf (posixResolve fs.cwd p) =
      jsToLower (afterLast '.' (posixResolve fs.cwd p)) := by
    rw [extOf, getLastD_splitOnChar]
  by_cases hdot : '.' ∈ afterLast '/' (posixResolve fs.cwd p)
  · -- the final segment has a dot, so the code's split-pop is its extension
    obtain ⟨u, hu⟩ := exists_append_afterLast '/' (posixResolve fs.cwd p)
    have hal : afterLast '.' (posixResolve fs.cwd p) =
        afterLast '.' (afterLast '/' (posixResolve fs.cwd p)) := by
      conv_lhs => rw [hu]
      exact afterLast_append_of_mem u hdot
    have hsegext : segExt (finalSegment (posixResolve fs.cwd p)) =
        some (afterLast '.' (afterLast '/' (posixResolve fs.cwd p))) := by
      rw [hfseg, segExt, if_pos hdot]
    have hextE : extOf (posixResolve fs.cwd p) =
        jsToLower (afterLast '.' (afterLast '/' (posixResolve fs.cwd p))) := by
      rw [hext, hal]
    by_cases hmem : jsToLower (afterLast '.' (afterLast '/' (posixResolve fs.cwd p)))
        ∈ cfg.allowedExtensions
    · have hne : (extOf (posixResolve fs.cwd p)).isEmpty = false := by
        rw [hextE]
        exact isEmpty_false_of_ne_nil (mem_exts_ne_nil (hexts ▸ hmem))
      have hcont : cfg.allowedExtensions.contains (extOf (posixResolve fs.cwd p)) = true := by
        rw [hextE]
        exact (contains_iff_mem _ _).mpr hmem
      have hnot : ¬ ((extOf (posixResolve fs.cwd p)).isEmpty ||
          !cfg.allowedExtensions.contains (extOf (posixResolve fs.cwd p))) = true := by
        rw [hne, hcont]
        simp
      have hres : validateFilePath fs p cfg =
          if numGt (stats.size : Int) cfg.maxFileSize then .denyTooLarge else .allow := by
        rw [hmain, if_neg hnot]
      constructor
      · constructor
        · rintro ⟨e, he⟩
          rw [hres] at he
          split at he <;> cases he
        · intro hno
          exact absurd ⟨_, hsegext, hmem⟩ hno
      · intro _
        rw [hres]
        split
        · exact Or.inr rfl
        · exact Or.inl rfl
    · have hcont : cfg.allowedExtensions.contains (extOf (posixResolve fs.cwd p)) = false := by
        refine Bool.eq_false_iff.mpr fun hc => ?_
        rw [hextE] at hc
        exact hmem ((contains_iff_mem _ _).mp hc)
      have hbadT : ((extOf (posixResolve fs.cwd p)).isEmpty ||
          !cfg.allowedExtensions.contains (extOf (posixResolve fs.cwd p))) = true := by
        rw [hcont]
        simp
      have hres : validateFilePath fs p cfg = .denyExt (extOf (posixResolve fs.cwd p)) := by
        rw [hmain, if_pos hbadT]
      constructor
      · constructor
        · intro _
          rintro ⟨e, he, hm⟩
          rw [hsegext] at he
          injection he with he'
          subst he'
          exact hmem hm
        · intro _
          exact ⟨_, hres⟩
      · rintro ⟨e, he, hm⟩
        rw [hsegext] at he
        injection he with he'
        subst he'
        exact absurd hm hmem
  · -- the final segment has no dot: the code's split-pop spans a slash
    have hsegnone : segExt (finalSegment (posixResolve fs.cwd p)) = none := by
      rw [hfseg, segExt, if_neg hdot]
    have hslash : '/' ∈ afterLast '.' (posixResolve fs.cwd p) :=
      mem_afterLast_cross (by decide) hdot (slash_mem_posixResolve fs.cwd p)
    have hslashE : '/' ∈ extOf (posixResolve fs.cwd p) := by
      rw [hext, jsToLower]
      exact List.mem_map.mpr ⟨'/', hslash, by decide⟩
    have hcont : cfg.allowedExtensions.contains (extOf (posixResolve fs.cwd p)) = false := by
      refine Bool.eq_false_iff.mpr fun hc => ?_
      have hm := (contains_iff_mem _ _).mp hc
      rw [hexts] at hm
      exact mem_exts_no_slash hm hslashE
    have hbadT : ((extOf (posixResolve fs.cwd p)).isEmpty ||
        !cfg.allowedExtensions.contains (extOf (posixResolve fs.cwd p))) = true := by
      rw [hcont]
      simp
    have hres : validateFilePath fs p cfg = .denyExt (extOf (posixResolve fs.cwd p)) := by
      rw [hmain, if_pos hbadT]
    constructor
    · constructor
      · intro _
        rintro ⟨e, he, _⟩
        rw [hsegnone] at he
        cases he
      · intro _
        exact ⟨_, hres⟩
    · rintro ⟨e, he, _⟩
      rw [hsegnone] at he
      cases he

/-- Witness for C7: an upper-case `.MD` file inside the allowed directory
passes the extension check. -/
theorem C7_extension_check_witness :
    validateFilePath
      ⟨"/".data, fun q => if q = "/tmp/docs/note.MD".data then some ⟨true, 100⟩ else none⟩
      "/tmp/docs/note.MD".data
      ⟨["/tmp/docs".data], some 1000, ["md".data, "markdown".data, "txt".data]⟩ = .allow ∨
    validateFilePath
      ⟨"/".data, fun q => if q = "/tmp/docs/note.MD".data then some ⟨true, 100⟩ else none⟩
      "/tmp/docs/note.MD".data
      ⟨["/tmp/docs".data], some 1000, ["md".data, "markdown".data, "txt".data]⟩
      = .denyTooLarge :=
  (C7_extension_check _ _ _ ⟨true, 100⟩ rfl (by decide) rfl (by decide)).2
    ⟨"MD".data, by decide, by decide⟩

/-- C8: for an existing regular file that passes containment and the
extension check, with a numeric size limit `m`, the decision is the
file-too-large denial exactly when the size strictly exceeds `m`, and
allow otherwise — in particular a file of size exactly `m` is
allowed. -/
theorem C8_size_check (fs : FS) (p : JStr) (cfg : SecurityConfig) (stats : FileStats) (m : Int)
    (hstat : fs.stat (posixResolve fs.cwd p) = some stats)
    (hfile : stats.isFile = true)
    (hallow : pathIsAllowed fs.cwd cfg (posixResolve fs.cwd p) = true)
    (hne : (extOf (posixResolve fs.cwd p)).isEmpty = false)
    (hmem : cfg.allowedExtensions.contains (extOf (posixResolve fs.cwd p)) = true)
    (hmax : cfg.maxFileSize = some m) :
    validateFilePath fs p cfg =
      if (stats.size : Int) > m then .denyTooLarge else .allow := by
  have hnot : ¬ ((extOf (posixResolve fs.cwd p)).isEmpty ||
      !cfg.allowedExtensions.contains (extOf (posixResolve fs.cwd p))) = true := by
    rw [hne, hmem]
    simp
  rw [validateFilePath_ext_branch fs p cfg stats hstat hfile hallow]
  rw [if_neg hnot]
  rw [hmax]
  simp only [numGt]
  by_cases hgt : (stats.size : Int) > m
  · rw [if_pos (by simpa using hgt), if_pos hgt]
  · rw [if_neg (by simpa using hgt), if_neg hgt]

/-- Witness for C8: a file exactly at the 1000-byte limit is allowed and a
1001-byte file is denied as too large. -/
theorem C8_size_check_witness :
    validateFilePath
      ⟨"/".data, fun q => if q = "/tmp/docs/atmax.md".data then some ⟨true, 1000⟩ else none⟩
      "/tmp/docs/atmax.md".data
      ⟨["/tmp/docs".data], some 1000, ["md".data, "markdown".data, "txt".data]⟩ = .allow ∧
    validateFilePath
      ⟨"/".data, fun q => if q = "/tmp/docs/big.md".data then some ⟨true, 1001⟩ else none⟩
      "/tmp/docs/big.md".data
      ⟨["/tmp/docs".data], some 1000, ["md".data, "markdown".data, "txt".data]⟩
      = .denyTooLarge := by
  constructor
  · have h := C8_size_check
      ⟨"/".data, fun q => if q = "/tmp/docs/atmax.md".data then some ⟨true, 1000⟩ else none⟩
      "/tmp/docs/atmax.md".data
      ⟨["/tmp/docs".data], some 1000, ["md".data, "markdown".data, "txt".data]⟩
      ⟨true, 1000⟩ 1000 (by decide) rfl (by decide) (by decide) (by decide) rfl
    simpa using h
  · have h := C8_size_check
      ⟨"/".data, fun q => if q = "/tmp/docs/big.md".data then some ⟨true, 1001⟩ else none⟩
      "/tmp/docs/big.md".data
      ⟨["/tmp/docs".data], some 1000, ["md".data, "markdown".data, "txt".data]⟩
      ⟨true, 1001⟩ 1000 (by decide) rfl (by decide) (by decide) (by decide) rfl
    simpa using h

end MarkdownEditor
